import Mathlib

/-!
Verification of the streaming report extractor and its consumers
(`src/services/geminiService.ts`, `src/components/AnalysisDashboard.tsx`,
and the YouTube-URL helpers), shallowly embedded over `List Char`.

Strings from the source are modelled as `List Char`; JavaScript string
methods (`match`, `split`, `indexOf`-style search) are modelled by
executable functions below, together with lemmas characterising the
leftmost-occurrence search used by the regular expressions in the source.
-/

namespace Revival

/-- Leftmost index at which `pat` occurs as a contiguous sublist of `s`
(the position of the leftmost regex/`indexOf` match for a literal
pattern). `none` when there is no occurrence. -/
def firstIdx (pat : List Char) : List Char → Option Nat
  | [] => if pat.isEmpty then some 0 else none
  | c :: rest =>
    if pat.isPrefixOf (c :: rest) then some 0
    else (firstIdx pat rest).map (· + 1)

theorem isPrefixOf_length_le {p u : List Char} (h : p.isPrefixOf u = true) :
    p.length ≤ u.length := by
  induction p generalizing u with
  | nil => simp
  | cons a as ih =>
    cases u with
    | nil => simp [List.isPrefixOf] at h
    | cons b bs =>
      simp only [List.isPrefixOf, Bool.and_eq_true] at h
      simpa [List.length_cons, Nat.succ_le_succ_iff] using ih h.2

theorem isPrefixOf_append_left {p u : List Char} (v : List Char)
    (h : p.isPrefixOf u = true) : p.isPrefixOf (u ++ v) = true := by
  induction p generalizing u with
  | nil => simp [List.isPrefixOf]
  | cons a as ih =>
    cases u with
    | nil => simp [List.isPrefixOf] at h
    | cons b bs =>
      simp only [List.isPrefixOf, Bool.and_eq_true] at h ⊢
      exact ⟨h.1, ih h.2⟩

theorem isPrefixOf_of_append {p u v : List Char}
    (hl : p.length ≤ u.length) (h : p.isPrefixOf (u ++ v) = true) :
    p.isPrefixOf u = true := by
  induction p generalizing u with
  | nil => simp [List.isPrefixOf]
  | cons a as ih =>
    cases u with
    | nil => simp at hl
    | cons b bs =>
      simp only [List.cons_append, List.isPrefixOf, Bool.and_eq_true] at h ⊢
      exact ⟨h.1, ih (by simpa [List.length_cons, Nat.succ_le_succ_iff] using hl) h.2⟩

theorem firstIdx_none_iff {pat s : List Char} :
    firstIdx pat s = none ↔ ∀ i, pat.isPrefixOf (s.drop i) = false := by
  induction s with
  | nil =>
    cases pat with
    | nil => simp [firstIdx, List.isPrefixOf]
    | cons c cs => simp [firstIdx, List.isPrefixOf]
  | cons c rest ih =>
    by_cases hp : pat.isPrefixOf (c :: rest) = true
    · rw [firstIdx, if_pos hp]
      constructor
      · intro h; cases h
      · intro h
        have := h 0
        simp [hp] at this
    · rw [firstIdx, if_neg hp, Option.map_eq_none', ih]
      constructor
      · intro h i
        cases i with
        | zero => simpa using (Bool.not_eq_true _).mp hp
        | succ j => simpa using h j
      · intro h j
        simpa using h (j + 1)

theorem firstIdx_some {pat s : List Char} {i : Nat}
    (h : firstIdx pat s = some i) :
    pat.isPrefixOf (s.drop i) = true ∧
      ∀ q, q < i → pat.isPrefixOf (s.drop q) = false := by
  induction s generalizing i with
  | nil =>
    simp only [firstIdx] at h
    by_cases hp : pat.isEmpty
    · simp only [hp, if_true, Option.some.injEq] at h
      subst h
      refine ⟨by cases pat with | nil => simp [List.isPrefixOf] | cons a as => simp at hp, ?_⟩
      intro q hq; omega
    · simp [hp] at h
  | cons c rest ih =>
    by_cases hp : pat.isPrefixOf (c :: rest) = true
    · rw [firstIdx, if_pos hp] at h
      cases h
      exact ⟨by simpa using hp, by intro q hq; omega⟩
    · rw [firstIdx, if_neg hp, Option.map_eq_some'] at h
      obtain ⟨j, hj, rfl⟩ := h
      obtain ⟨h1, h2⟩ := ih hj
      refine ⟨by simpa using h1, ?_⟩
      intro q hq
      cases q with
      | zero => simpa using (Bool.not_eq_true _).mp hp
      | succ q' => simpa using h2 q' (by omega)

theorem firstIdx_eq_some_of {pat s : List Char} {i : Nat}
    (h1 : pat.isPrefixOf (s.drop i) = true)
    (h2 : ∀ q, q < i → pat.isPrefixOf (s.drop q) = false) :
    firstIdx pat s = some i := by
  induction s generalizing i with
  | nil =>
    have hi : i = 0 := by
      by_contra hne
      have := h2 0 (Nat.pos_of_ne_zero hne)
      simp only [List.drop_nil] at h1 this
      rw [h1] at this; cases this
    subst hi
    simp only [List.drop_nil] at h1
    have : pat = [] := by
      cases pat with
      | nil => rfl
      | cons a as => simp [List.isPrefixOf] at h1
    simp [firstIdx, this]
  | cons c rest ih =>
    cases i with
    | zero =>
      simp only [List.drop_zero] at h1
      simp [firstIdx, h1]
    | succ j =>
      have hp : pat.isPrefixOf (c :: rest) = false := by
        simpa using h2 0 (Nat.succ_pos j)
      rw [firstIdx, if_neg (by simp [hp])]
      have := ih (i := j) (by simpa using h1)
        (fun q hq => by simpa using h2 (q + 1) (by omega))
      simp [this]

/-- Appending more text to the right of a buffer does not move (or remove)
the leftmost occurrence of a nonempty pattern. -/
theorem firstIdx_append {pat s : List Char} {i : Nat} (t : List Char)
    (hne : pat ≠ [])
    (h : firstIdx pat s = some i) : firstIdx pat (s ++ t) = some i := by
  obtain ⟨h1, h2⟩ := firstIdx_some h
  have hplen : 1 ≤ pat.length := by
    cases pat with
    | nil => exact absurd rfl hne
    | cons a as => simp
  have hlen : pat.length ≤ s.length - i := by
    simpa using isPrefixOf_length_le h1
  have hi : i ≤ s.length := by omega
  refine firstIdx_eq_some_of ?_ ?_
  · rw [List.drop_append_of_le_length hi]
    exact isPrefixOf_append_left t h1
  · intro q hq
    have hqs : q ≤ s.length := by omega
    rw [List.drop_append_of_le_length hqs]
    by_contra hcontra
    have hc : pat.isPrefixOf (s.drop q ++ t) = true := by
      revert hcontra
      cases pat.isPrefixOf (s.drop q ++ t) <;> simp
    have hql : pat.length ≤ (s.drop q).length := by
      simp only [List.length_drop]
      omega
    have := isPrefixOf_of_append hql hc
    rw [h2 q hq] at this
    cases this

/-! Stream loop of `analyzeVideoAndCreateRevivalPlan`
(`src/services/geminiService.ts` lines 94-111): the buffer `fullText`
accumulates fragments; after each fragment the regex
`<thinking>([\s\S]*?)(?:<\/thinking>|$)` is re-run over the whole buffer.
Its leftmost match starts at the first `<thinking>`; the lazy group ends at
the first subsequent `</thinking>`, or at the end of the buffer if no
closing tag has arrived yet. -/

def openTag : List Char := "<thinking>".toList

def closeTag : List Char := "</thinking>".toList

/-- Group 1 of `fullText.match(/<thinking>([\s\S]*?)(?:<\/thinking>|$)/)`:
`none` when the regex does not match (no opening tag yet). -/
def extractThinking (s : List Char) : Option (List Char) :=
  match firstIdx openTag s with
  | none => none
  | some i =>
    let rest := s.drop (i + openTag.length)
    match firstIdx closeTag rest with
    | none => some rest
    | some j => some (rest.take j)

/-- Value `fullText.split("<thinking>")[1] || ""` from the `else if` branch
of the stream loop (unreachable in practice, kept for fidelity). -/
def splitTailAfterOpen (s : List Char) : List Char :=
  match firstIdx openTag s with
  | none => []
  | some i =>
    let rest := s.drop (i + openTag.length)
    match firstIdx openTag rest with
    | none => rest
    | some j => rest.take j

/-- The narrative value passed to `onThinking` after a chunk, if the loop
body emits one for the current buffer. -/
def chunkEmit (fullText : List Char) : Option (List Char) :=
  match extractThinking fullText with
  | some t => some t
  | none =>
    if (firstIdx openTag fullText).isSome then some (splitTailAfterOpen fullText)
    else none

/-- The sequence of narrative values emitted to `onThinking` while folding
the fragment list into the buffer, starting from accumulated text `buf`. -/
def emitsOf : List (List Char) → List Char → List (List Char)
  | [], _ => []
  | f :: fs, buf =>
    let b := buf ++ f
    match chunkEmit b with
    | some e => e :: emitsOf fs b
    | none => emitsOf fs b

/-- The accumulated buffer after consuming all fragments. -/
def finalBuf : List (List Char) → List Char → List Char
  | [], buf => buf
  | f :: fs, buf => finalBuf fs (buf ++ f)

/-- Both an opening and a closing `<thinking>` tag are present in the
buffer (the closing one after the opening one). -/
def thinkingClosed (s : List Char) : Bool :=
  match firstIdx openTag s with
  | none => false
  | some i => (firstIdx closeTag (s.drop (i + openTag.length))).isSome

theorem take_append_of_le_len {u : List Char} (v : List Char) {n : Nat}
    (h : n ≤ u.length) : (u ++ v).take n = u.take n := by
  induction u generalizing n with
  | nil =>
    have : n = 0 := by simpa using h
    simp [this]
  | cons a as ih =>
    cases n with
    | zero => simp
    | succ m =>
      simp only [List.cons_append, List.take_succ_cons]
      rw [ih (by simpa [Nat.succ_le_succ_iff] using h)]

/-- C5. Once the buffer contains a closing tag after the opening tag, the
extracted narrative is unaffected by appending further fragments. -/
theorem narrative_frozen_after_close (s t : List Char)
    (h : thinkingClosed s = true) :
    extractThinking (s ++ t) = extractThinking s := by
  unfold thinkingClosed at h
  cases hopen : firstIdx openTag s with
  | none => rw [hopen] at h; cases h
  | some i =>
    rw [hopen] at h
    cases hclose : firstIdx closeTag (s.drop (i + openTag.length)) with
    | none => simp only [hclose, Option.isSome_none] at h; cases h
    | some j =>
      have hopen' : firstIdx openTag (s ++ t) = some i :=
        firstIdx_append t (by decide) hopen
      have hio : openTag.isPrefixOf (s.drop i) = true := (firstIdx_some hopen).1
      have hilen : i + openTag.length ≤ s.length := by
        have := isPrefixOf_length_le hio
        simp only [List.length_drop] at this
        have hi : i ≤ s.length := by
          by_contra hgt
          have : s.drop i = [] := List.drop_eq_nil_of_le (by omega)
          rw [this] at hio
          have := isPrefixOf_length_le hio
          simp [openTag] at this
        omega
      have hdrop : (s ++ t).drop (i + openTag.length) =
          s.drop (i + openTag.length) ++ t :=
        List.drop_append_of_le_length hilen
      have hclose' : firstIdx closeTag (s.drop (i + openTag.length) ++ t) =
          some j := firstIdx_append t (by decide) hclose
      have hjc : closeTag.isPrefixOf ((s.drop (i + openTag.length)).drop j) = true :=
        (firstIdx_some hclose).1
      have hjlen : j ≤ (s.drop (i + openTag.length)).length := by
        have := isPrefixOf_length_le hjc
        simp only [List.length_drop] at this
        have : closeTag.length ≤ (s.drop (i + openTag.length)).length - j := by
          simpa using this
        have hcl : 1 ≤ closeTag.length := by decide
        omega
      simp only [extractThinking, hopen, hopen', hdrop, hclose, hclose',
        Option.some.injEq]
      exact take_append_of_le_len t hjlen

/-- C5 witness: a concrete closed buffer whose narrative is unchanged by a
further fragment. -/
theorem narrative_frozen_after_close_witness :
    thinkingClosed ("<thinking>Analyzing.</thinking>".toList) = true ∧
      extractThinking ("<thinking>Analyzing.</thinking>".toList ++ "extra".toList) =
        extractThinking ("<thinking>Analyzing.</thinking>".toList) :=
  ⟨by decide,
    narrative_frozen_after_close ("<thinking>Analyzing.</thinking>".toList)
      ("extra".toList) (by decide)⟩

/-! Structured-block extraction (`src/services/geminiService.ts` line 114):
`fullText.match(/```(?:json)?\s*([\s\S]*?)\s*```/i)`. The leftmost match
starts at the first triple backtick that is followed (at distance ≥ 3) by
another one; the case-insensitive `json` tag is consumed greedily when
present; the lazy group, squeezed between the two greedy `\s*`, is the text
up to the next triple backtick with surrounding whitespace stripped. -/

def fenceTok : List Char := "```".toList

/-- JavaScript regex `\s` restricted to the ASCII whitespace characters. -/
def isWS (c : Char) : Bool :=
  c = ' ' || c = '\t' || c = '\n' || c = '\r' ||
    c = Char.ofNat 11 || c = Char.ofNat 12

/-- Strip leading and trailing `\s*` from the lazily-captured group. -/
def trimWS (s : List Char) : List Char :=
  ((s.dropWhile isWS).reverse.dropWhile isWS).reverse

/-- The optional case-insensitive `json` language tag. -/
def jsonTagAt (t : List Char) : Bool :=
  match t with
  | c1 :: c2 :: c3 :: c4 :: _ =>
    c1.toLower = 'j' && c2.toLower = 's' && c3.toLower = 'o' && c4.toLower = 'n'
  | _ => false

/-- Find the closing fence in `t` and capture the trimmed group. -/
def closeFence (t : List Char) : Option (List Char) :=
  (firstIdx fenceTok t).map (fun p => trimWS (t.take p))

/-- Try the whole fenced-block regex with the opening fence anchored at the
head of `s`; the `json` tag is tried greedily first, then without. -/
def fenceMatchAt (s : List Char) : Option (List Char) :=
  if fenceTok.isPrefixOf s then
    let body := s.drop 3
    if jsonTagAt body then
      match closeFence (body.drop 4) with
      | some r => some r
      | none => closeFence body
    else closeFence body
  else none

/-- Leftmost match of the fenced-block regex over the final buffer:
`some` trimmed block content, or `none` (the `!jsonMatch` failure path). -/
def extractJsonBlock : List Char → Option (List Char)
  | [] => none
  | c :: rest =>
    match fenceMatchAt (c :: rest) with
    | some r => some r
    | none => extractJsonBlock rest

/-- The buffer contains a pair of fence delimiters: an opening ``` and a
closing ``` at distance at least 3 after it. -/
def hasFencePair (s : List Char) : Bool :=
  match firstIdx fenceTok s with
  | some i => (firstIdx fenceTok (s.drop (i + 3))).isSome
  | none => false

theorem no_occurrence_far {s : List Char}
    (h : hasFencePair s = false) :
    ∀ i j, fenceTok.isPrefixOf (s.drop i) = true →
      fenceTok.isPrefixOf (s.drop j) = true → j < i + 3 := by
  unfold hasFencePair at h
  cases hfi : firstIdx fenceTok s with
  | none =>
    intro i j hi _
    have := firstIdx_none_iff.mp hfi i
    rw [hi] at this; cases this
  | some i0 =>
    rw [hfi] at h
    cases hfar : firstIdx fenceTok (s.drop (i0 + 3)) with
    | some p => simp [hfar] at h
    | none =>
      intro i j hi hj
      have hmin := (firstIdx_some hfi).2
      have hige : i0 ≤ i := by
        by_contra hlt
        have := hmin i (by omega)
        rw [hi] at this; cases this
      have hjlt : j < i0 + 3 := by
        by_contra hge
        have := firstIdx_none_iff.mp hfar (j - (i0 + 3))
        rw [List.drop_drop] at this
        have hjeq : i0 + 3 + (j - (i0 + 3)) = j := by omega
        rw [hjeq] at this
        rw [hj] at this; cases this
      omega

theorem extractJsonBlock_eq_none {s : List Char}
    (h : ∀ i j, fenceTok.isPrefixOf (s.drop i) = true →
      fenceTok.isPrefixOf (s.drop j) = true → j < i + 3) :
    extractJsonBlock s = none := by
  induction s with
  | nil => rfl
  | cons c rest ih =>
    have hstep : ∀ i j, fenceTok.isPrefixOf (rest.drop i) = true →
        fenceTok.isPrefixOf (rest.drop j) = true → j < i + 3 := by
      intro i j hi hj
      have := h (i + 1) (j + 1) (by simpa using hi) (by simpa using hj)
      omega
    show (match fenceMatchAt (c :: rest) with
      | some r => some r
      | none => extractJsonBlock rest) = none
    have hfm : fenceMatchAt (c :: rest) = none := by
      unfold fenceMatchAt
      by_cases hpre : fenceTok.isPrefixOf (c :: rest) = true
      · rw [if_pos hpre]
        have hnone : ∀ d, 3 ≤ d → firstIdx fenceTok ((c :: rest).drop d) = none := by
          intro d hd
          rw [firstIdx_none_iff]
          intro q
          by_contra hq
          have hq' : fenceTok.isPrefixOf ((c :: rest).drop d |>.drop q) = true := by
            revert hq; cases fenceTok.isPrefixOf ((c :: rest).drop d |>.drop q) <;> simp
          rw [List.drop_drop] at hq'
          have := h 0 (d + q) (by simpa using hpre) hq'
          omega
        have h3 : firstIdx fenceTok ((c :: rest).drop 3) = none := hnone 3 (by omega)
        have h7 : firstIdx fenceTok (((c :: rest).drop 3).drop 4) = none := by
          rw [List.drop_drop]
          exact hnone 7 (by omega)
        simp only [closeFence, h3, h7, Option.map_none']
        by_cases hj : jsonTagAt ((c :: rest).drop 3) = true
        · rw [if_pos hj]
        · rw [if_neg hj]
      · rw [if_neg hpre]
    rw [hfm, ih hstep]

/-! JSON values and `JSON.parse`. The parser follows the standard JSON
grammar (objects, arrays, strings with escapes, integer literals, `true`,
`false`, `null`); numeric literals with a fraction or exponent part are
outside this integer-valued model and are rejected. Duplicate object keys
follow the JavaScript rule: a later member overwrites the earlier one. -/

inductive JValue where
  | jnull
  | jbool (b : Bool)
  | jnum (n : Int)
  | jstr (s : List Char)
  | jarr (elems : List JValue)
  | jobj (fields : List (List Char × JValue))

def lbrace : Char := Char.ofNat 123

def rbrace : Char := Char.ofNat 125

def isJsonWS (c : Char) : Bool := c = ' ' || c = '\t' || c = '\n' || c = '\r'

def skipWS (s : List Char) : List Char := s.dropWhile isJsonWS

def isDigit (c : Char) : Bool := '0' ≤ c && c ≤ '9'

def hexVal (c : Char) : Option Nat :=
  if '0' ≤ c ∧ c ≤ '9' then some (c.toNat - 48)
  else if 'a' ≤ c ∧ c ≤ 'f' then some (c.toNat - 87)
  else if 'A' ≤ c ∧ c ≤ 'F' then some (c.toNat - 55)
  else none

def escChar (e : Char) : Option Char :=
  if e = '"' then some '"'
  else if e = '\\' then some '\\'
  else if e = '/' then some '/'
  else if e = 'b' then some (Char.ofNat 8)
  else if e = 'f' then some (Char.ofNat 12)
  else if e = 'n' then some '\n'
  else if e = 'r' then some '\r'
  else if e = 't' then some '\t'
  else none

/-- Body of a JSON string literal after the opening quote; returns the
decoded characters and the input following the closing quote. -/
def parseStrBody : List Char → Option (List Char × List Char)
  | [] => none
  | c :: rest =>
    if c = '"' then some ([], rest)
    else if c = '\\' then
      match rest with
      | 'u' :: h1 :: h2 :: h3 :: h4 :: rest3 =>
        match hexVal h1, hexVal h2, hexVal h3, hexVal h4 with
        | some a, some b, some d, some e =>
          (parseStrBody rest3).map
            (fun p => (Char.ofNat (((a * 16 + b) * 16 + d) * 16 + e) :: p.1, p.2))
        | _, _, _, _ => none
      | e :: rest2 =>
        match escChar e with
        | some c2 => (parseStrBody rest2).map (fun p => (c2 :: p.1, p.2))
        | none => none
      | [] => none
    else if c.toNat < 32 then none
    else (parseStrBody rest).map (fun p => (c :: p.1, p.2))

def digitsToNat (ds : List Char) : Nat :=
  ds.foldl (fun n c => n * 10 + (c.toNat - 48)) 0

/-- An integer JSON numeric literal (sign already consumed). Rejects the
fraction/exponent forms that fall outside this integer-valued model. -/
def parseIntLit (s : List Char) (neg : Bool) : Option (Int × List Char) :=
  let ds := s.takeWhile isDigit
  let rest := s.drop ds.length
  if ds.isEmpty then none
  else if 1 < ds.length ∧ ds.headD '0' = '0' then none
  else
    let v : Int := if neg then -(digitsToNat ds : Int) else (digitsToNat ds : Int)
    match rest with
    | r :: _ => if r = '.' ∨ r = 'e' ∨ r = 'E' then none else some (v, rest)
    | [] => some (v, rest)

/-- JavaScript object-member insertion: a repeated key overwrites the
earlier value in place, otherwise the member is appended. -/
def objInsert (fields : List (List Char × JValue)) (k : List Char) (v : JValue) :
    List (List Char × JValue) :=
  if fields.any (fun kv => kv.1 == k) then
    fields.map (fun kv => if kv.1 == k then (k, v) else kv)
  else fields ++ [(k, v)]

mutual

def parseVal : Nat → List Char → Option (JValue × List Char)
  | 0, _ => none
  | fuel + 1, s =>
    match skipWS s with
    | [] => none
    | c :: rest =>
      if c = lbrace then
        match skipWS rest with
        | c2 :: rest2 =>
          if c2 = rbrace then some (.jobj [], rest2)
          else (parseMembers fuel (c2 :: rest2) []).map (fun p => (.jobj p.1, p.2))
        | [] => none
      else if c = '[' then
        match skipWS rest with
        | c2 :: rest2 =>
          if c2 = ']' then some (.jarr [], rest2)
          else (parseElems fuel (c2 :: rest2) []).map (fun p => (.jarr p.1, p.2))
        | [] => none
      else if c = '"' then
        (parseStrBody rest).map (fun p => (.jstr p.1, p.2))
      else if c = 't' then
        if "rue".toList.isPrefixOf rest then some (.jbool true, rest.drop 3) else none
      else if c = 'f' then
        if "alse".toList.isPrefixOf rest then some (.jbool false, rest.drop 4) else none
      else if c = 'n' then
        if "ull".toList.isPrefixOf rest then some (.jnull, rest.drop 3) else none
      else if c = '-' then
        (parseIntLit rest true).map (fun p => (.jnum p.1, p.2))
      else if isDigit c then
        (parseIntLit (c :: rest) false).map (fun p => (.jnum p.1, p.2))
      else none

def parseMembers : Nat → List Char → List (List Char × JValue) →
    Option (List (List Char × JValue) × List Char)
  | 0, _, _ => none
  | fuel + 1, s, acc =>
    match s with
    | c :: rest =>
      if c = '"' then
        match parseStrBody rest with
        | some (k, r1) =>
          match skipWS r1 with
          | ':' :: r2 =>
            match parseVal fuel r2 with
            | some (v, r3) =>
              match skipWS r3 with
              | ',' :: r4 =>
                match skipWS r4 with
                | c2 :: r5 => parseMembers fuel (c2 :: r5) (objInsert acc k v)
                | [] => none
              | c2 :: r4 =>
                if c2 = rbrace then some (objInsert acc k v, r4) else none
              | [] => none
            | none => none
          | _ => none
        | none => none
      else none
    | [] => none

def parseElems : Nat → List Char → List JValue → Option (List JValue × List Char)
  | 0, _, _ => none
  | fuel + 1, s, acc =>
    match parseVal fuel s with
    | some (v, r1) =>
      match skipWS r1 with
      | ',' :: r2 => parseElems fuel r2 (acc ++ [v])
      | ']' :: r2 => some (acc ++ [v], r2)
      | _ => none
    | none => none

end

/-- Model of `JSON.parse`: parse one value, then require only whitespace. -/
def jsonParse (s : List Char) : Option JValue :=
  match parseVal (2 * s.length + 2) s with
  | some (v, rest) => if (skipWS rest).isEmpty then some v else none
  | none => none

/-! Post-parse steps of `analyzeVideoAndCreateRevivalPlan`
(`src/services/geminiService.ts` lines 132-147): unwrap a recognized
wrapper key, then synthesize `originalVideoMetadata` when it is falsy. -/

/-- Last-match association lookup: mirrors property access on an object
built by `JSON.parse`, where a later duplicate member overwrote an earlier
one. -/
def jLookup : List (List Char × JValue) → List Char → Option JValue
  | [], _ => none
  | (k', v) :: rest, k =>
    match jLookup rest k with
    | some r => some r
    | none => if k' = k then some v else none

/-- JavaScript property read `v[k]`; `none` is `undefined`. Property reads
on primitives yield `undefined`. A read on `null` throws a TypeError in the
source; this model has no such error path, so every theorem below that
involves a property read restricts its payload to objects. -/
def jGet (v : JValue) (k : List Char) : Option JValue :=
  match v with
  | .jobj fs => jLookup fs k
  | _ => none

/-- JavaScript truthiness of a property-read result. -/
def truthy : Option JValue → Bool
  | none => false
  | some .jnull => false
  | some (.jbool b) => b
  | some (.jnum n) => n != 0
  | some (.jstr s) => !s.isEmpty
  | some (.jarr _) => true
  | some (.jobj _) => true

def kRS : List Char := "RevivalStrategy".toList

def krs : List Char := "revivalStrategy".toList

def kMeta : List Char := "originalVideoMetadata".toList

/-- Lines 133-135: `if (parsedData.RevivalStrategy) ... else if
(parsedData.revivalStrategy) ...`. -/
def unwrapStrategy (p : JValue) : JValue :=
  if truthy (jGet p kRS) then (jGet p kRS).getD p
  else if truthy (jGet p krs) then (jGet p krs).getD p
  else p

def defaultMeta : JValue :=
  .jobj [("title".toList, .jstr ("Unknown Title".toList)),
    ("publishDate".toList, .jstr ("Unknown Date".toList)),
    ("currentViews".toList, .jnum 0)]

/-- JavaScript property assignment `v[k] = x` on an object: overwrite in
place when the key exists, append otherwise. On a primitive the source's
strict-mode assignment throws a TypeError, and on an array it would attach
a non-index property; neither is modelled (the assignment is the identity
there), so the repair theorems below restrict their payloads to objects. -/
def jSet (v : JValue) (k : List Char) (x : JValue) : JValue :=
  match v with
  | .jobj fs =>
    if (jLookup fs k).isSome then
      .jobj (fs.map (fun kv => if kv.1 = k then (k, x) else kv))
    else .jobj (fs ++ [(k, x)])
  | other => other

/-- Lines 138-145: synthesize the default metadata when the field is
falsy. -/
def repairMeta (strategy : JValue) : JValue :=
  if truthy (jGet strategy kMeta) then strategy
  else jSet strategy kMeta defaultMeta

def postParse (p : JValue) : JValue := repairMeta (unwrapStrategy p)

inductive ExtractErr where
  /-- Message "Failed to parse JSON response from model output. The model
  did not return a valid JSON block." -/
  | noJsonBlock
  /-- Message "Failed to parse the JSON returned by the AI." -/
  | badJson
deriving DecidableEq

/-- Finalization after stream exhaustion (lines 113-147): extract the first
fenced block, parse it, unwrap, repair, return. -/
def finalizeBuffer (buf : List Char) : Except ExtractErr JValue :=
  match extractJsonBlock buf with
  | none => .error .noJsonBlock
  | some js =>
    match jsonParse js with
    | none => .error .badJson
    | some v => .ok (postParse v)

theorem jLookup_append (a b : List (List Char × JValue)) (k : List Char) :
    jLookup (a ++ b) k =
      match jLookup b k with
      | some r => some r
      | none => jLookup a k := by
  induction a with
  | nil =>
    simp only [List.nil_append]
    cases h : jLookup b k <;> simp [jLookup, h]
  | cons kv rest ih =>
    obtain ⟨k', v⟩ := kv
    simp only [List.cons_append, jLookup]
    cases hb : jLookup b k <;> cases hr : jLookup rest k <;>
      simp [ih, hb, hr]

theorem unwrapStrategy_id {p : JValue} (h1 : jGet p kRS = none)
    (h2 : jGet p krs = none) : unwrapStrategy p = p := by
  unfold unwrapStrategy
  rw [h1, h2]
  simp [truthy]

/-- The fragment sequence of the end-to-end scenario. -/
def c1Frags : List (List Char) :=
  ["<thi".toList, "nking>Step 1...".toList, " Step 2.</thinking>".toList,
    ("```json\n\x7b\"segments\":[],\"outdatedItems\":[],\"predictedViews\":100,\"predictedEngagement\":50\x7d\n```").toList]

/-- C1. Feeding the four scenario fragments through the stream loop emits
narratives progressing to exactly "Step 1... Step 2." and staying there,
and finalization returns the strategy with empty segments and
outdatedItems, predictedViews 100, predictedEngagement 50, and the
synthesized default originalVideoMetadata. -/
theorem c1_end_to_end :
    emitsOf c1Frags [] =
      ["Step 1...".toList, "Step 1... Step 2.".toList, "Step 1... Step 2.".toList] ∧
      finalizeBuffer (finalBuf c1Frags []) =
        .ok (.jobj [("segments".toList, .jarr []),
          ("outdatedItems".toList, .jarr []),
          ("predictedViews".toList, .jnum 100),
          ("predictedEngagement".toList, .jnum 50),
          ("originalVideoMetadata".toList, defaultMeta)]) :=
  ⟨rfl, rfl⟩

/-- C2. A buffer containing no pair of fence delimiters makes finalization
fail with the no-structured-block error; no strategy value is produced. -/
theorem c2_no_fence_pair_fails (buf : List Char)
    (h : hasFencePair buf = false) :
    finalizeBuffer buf = .error .noJsonBlock := by
  unfold finalizeBuffer
  rw [extractJsonBlock_eq_none (no_occurrence_far h)]

/-- C2 witness: a concrete buffer with a single fence delimiter and no
pair. -/
theorem c2_no_fence_pair_fails_witness :
    hasFencePair ("The model wrote prose and one ``` only".toList) = false ∧
      finalizeBuffer ("The model wrote prose and one ``` only".toList) =
        .error .noJsonBlock :=
  ⟨by decide,
    c2_no_fence_pair_fails ("The model wrote prose and one ``` only".toList)
      (by decide)⟩

/-- C3. For a well-formed strategy object X (an object whose fields do not
include the wrapper keys), the post-parse pipeline yields the same result
on \x7b"RevivalStrategy": X\x7d, on \x7b"revivalStrategy": X\x7d, and on X
itself. -/
theorem c3_wrapper_unwrap_equiv (fs : List (List Char × JValue))
    (h1 : jGet (.jobj fs) kRS = none) (h2 : jGet (.jobj fs) krs = none) :
    postParse (.jobj [(kRS, .jobj fs)]) = postParse (.jobj fs) ∧
      postParse (.jobj [(krs, .jobj fs)]) = postParse (.jobj fs) := by
  have hid : unwrapStrategy (.jobj fs) = .jobj fs := unwrapStrategy_id h1 h2
  have hA : unwrapStrategy (.jobj [(kRS, .jobj fs)]) = .jobj fs := by
    unfold unwrapStrategy
    have hg : jGet (JValue.jobj [(kRS, JValue.jobj fs)]) kRS =
        some (.jobj fs) := by
      simp [jGet, jLookup]
    rw [hg]
    simp [truthy]
  have hB : unwrapStrategy (.jobj [(krs, .jobj fs)]) = .jobj fs := by
    unfold unwrapStrategy
    have hgR : jGet (JValue.jobj [(krs, JValue.jobj fs)]) kRS = none := by
      simp only [jGet, jLookup]
      rw [if_neg (by decide)]
    have hgr : jGet (JValue.jobj [(krs, JValue.jobj fs)]) krs =
        some (.jobj fs) := by
      simp [jGet, jLookup]
    rw [hgR, hgr]
    simp [truthy]
  unfold postParse
  rw [hA, hB, hid]
  exact ⟨rfl, rfl⟩

/-- C3 witness at a concrete well-formed payload. -/
theorem c3_wrapper_unwrap_equiv_witness :
    postParse (.jobj [(kRS, .jobj [("segments".toList, JValue.jarr [])])]) =
        postParse (.jobj [("segments".toList, JValue.jarr [])]) ∧
      postParse (.jobj [(krs, .jobj [("segments".toList, JValue.jarr [])])]) =
        postParse (.jobj [("segments".toList, JValue.jarr [])]) :=
  c3_wrapper_unwrap_equiv [("segments".toList, JValue.jarr [])] rfl rfl

/-- C4. A parsed payload (an object, without wrapper keys) lacking
originalVideoMetadata is repaired to carry exactly the default metadata,
every other field is passed through unchanged, and on this payload family
the repair never causes a failure: whenever extraction succeeds and the
block parses to such an object, finalization returns ok. (For a `null` or
primitive payload the source instead throws a TypeError — at the property
read of line 134 for `null`, at the strict-mode repair assignment of line
140 for primitives — so the no-failure statement is confined to object
payloads.) -/
theorem c4_metadata_repair (fs : List (List Char × JValue))
    (h1 : jLookup fs kRS = none) (h2 : jLookup fs krs = none)
    (hm : jLookup fs kMeta = none) :
    jGet (postParse (.jobj fs)) kMeta = some defaultMeta ∧
      (∀ k, k ≠ kMeta → jGet (postParse (.jobj fs)) k = jGet (.jobj fs) k) ∧
      (∀ buf js, extractJsonBlock buf = some js →
        jsonParse js = some (.jobj fs) →
        finalizeBuffer buf = .ok (postParse (.jobj fs))) := by
  have hid : unwrapStrategy (.jobj fs) = .jobj fs :=
    unwrapStrategy_id (by simpa [jGet] using h1) (by simpa [jGet] using h2)
  have hrep : postParse (.jobj fs) = .jobj (fs ++ [(kMeta, defaultMeta)]) := by
    unfold postParse
    rw [hid]
    unfold repairMeta
    rw [show jGet (JValue.jobj fs) kMeta = none from hm]
    simp only [truthy, Bool.false_eq_true, if_false, jSet, hm, Option.isSome_none]
  refine ⟨?_, ?_, ?_⟩
  · rw [hrep]
    simp only [jGet, jLookup_append]
    simp [jLookup]
  · intro k hk
    rw [hrep]
    simp only [jGet, jLookup_append]
    have : jLookup [(kMeta, defaultMeta)] k = none := by
      simp only [jLookup]
      rw [if_neg (fun he => hk he.symm)]
    rw [this]
  · intro buf js hext hparse
    simp only [finalizeBuffer, hext, hparse]

/-- C4 witness at a concrete payload and buffer. -/
theorem c4_metadata_repair_witness :
    jGet (postParse (.jobj [("segments".toList, JValue.jarr [])])) kMeta =
        some defaultMeta ∧
      jGet (postParse (.jobj [("segments".toList, JValue.jarr [])]))
          ("segments".toList) =
        jGet (.jobj [("segments".toList, JValue.jarr [])]) ("segments".toList) ∧
      finalizeBuffer ("```json\n\x7b\"segments\":[]\x7d\n```".toList) =
        .ok (postParse (.jobj [("segments".toList, JValue.jarr [])])) := by
  obtain ⟨a, b, c⟩ := c4_metadata_repair [("segments".toList, JValue.jarr [])]
    rfl rfl rfl
  exact ⟨a, b ("segments".toList) (by decide),
    c ("```json\n\x7b\"segments\":[]\x7d\n```".toList)
      ("\x7b\"segments\":[]\x7d".toList) rfl rfl⟩

/-- C9. With truthy values under both wrapper keys the "RevivalStrategy"
one is selected; unwrapping also fires when the wrapper key is not the only
field; and falsy wrapper values never trigger unwrapping. -/
theorem c9_unwrap_selection (X Y v w Z : JValue) (L : List (List Char × JValue))
    (hXt : truthy (some X) = true) (hYt : truthy (some Y) = true)
    (hLR : jLookup L kRS = none) (hLr : jLookup L krs = none)
    (hvf : truthy (some v) = false) (hwf : truthy (some w) = false) :
    unwrapStrategy (.jobj ((kRS, X) :: (krs, Y) :: L)) = X ∧
      unwrapStrategy (.jobj (("extra".toList, Z) :: (krs, Y) :: L)) = Y ∧
      unwrapStrategy (.jobj ((kRS, v) :: (krs, w) :: L)) =
        .jobj ((kRS, v) :: (krs, w) :: L) := by
  have hne1 : ¬ (krs = kRS) := by decide
  have hne1' : ¬ (kRS = krs) := by decide
  have hne2 : ¬ (['e', 'x', 't', 'r', 'a'] = kRS) := by decide
  have hne3 : ¬ (['e', 'x', 't', 'r', 'a'] = krs) := by decide
  refine ⟨?_, ?_, ?_⟩
  · have hg : jGet (JValue.jobj ((kRS, X) :: (krs, Y) :: L)) kRS = some X := by
      simp [jGet, jLookup, hLR, hne1]
    unfold unwrapStrategy
    rw [hg, hXt]
    simp
  · have hgR : jGet (JValue.jobj (("extra".toList, Z) :: (krs, Y) :: L)) kRS =
        none := by
      simp [jGet, jLookup, hLR, hne1, hne2]
    have hgr : jGet (JValue.jobj (("extra".toList, Z) :: (krs, Y) :: L)) krs =
        some Y := by
      simp [jGet, jLookup, hLr, hne3]
    unfold unwrapStrategy
    rw [hgR, hgr, hYt]
    simp [truthy]
  · have hgR : jGet (JValue.jobj ((kRS, v) :: (krs, w) :: L)) kRS = some v := by
      simp [jGet, jLookup, hLR, hne1]
    have hgr : jGet (JValue.jobj ((kRS, v) :: (krs, w) :: L)) krs = some w := by
      simp [jGet, jLookup, hLr, hne1']
    unfold unwrapStrategy
    rw [hgR, hgr, hvf, hwf]
    simp

/-- C9 witness at concrete values: both keys truthy with an extra field,
a falsy-valued wrapper key, and a payload where the wrapper key is not the
only field. -/
theorem c9_unwrap_selection_witness :
    unwrapStrategy (.jobj ((kRS, .jobj []) :: (krs, .jnum 2) ::
        [("other".toList, JValue.jnum 1)])) = .jobj [] ∧
      unwrapStrategy (.jobj (("extra".toList, .jnum 7) :: (krs, .jnum 2) ::
        [("other".toList, JValue.jnum 1)])) = .jnum 2 ∧
      unwrapStrategy (.jobj ((kRS, .jnull) :: (krs, .jnum 0) ::
        [("other".toList, JValue.jnum 1)])) =
        .jobj ((kRS, .jnull) :: (krs, .jnum 0) ::
          [("other".toList, JValue.jnum 1)]) :=
  c9_unwrap_selection (.jobj []) (.jnum 2) .jnull (.jnum 0) (.jnum 7)
    [("other".toList, JValue.jnum 1)] rfl rfl rfl rfl rfl rfl

/-! Dashboard consumption of the strategy
(`src/components/AnalysisDashboard.tsx`). `Segment` and `OutdatedItem`
follow the interfaces of the types module. -/

structure Segment where
  startTime : List Char
  endTime : List Char
  summary : List Char
  subjects : List (List Char)
  needsUpdate : Option Bool
deriving DecidableEq

structure OutdatedItem where
  subject : List Char
  oldTool : List Char
  newTool : List Char
  reason : List Char
  impactScore : Int
  affectedSegmentIndices : Option (List Int)
deriving DecidableEq

/-- JavaScript array subscript `l[i]`; `undefined` (`none`) when `i` is
negative or past the end. -/
def jsIndex (l : List Segment) (i : Int) : Option Segment :=
  if i < 0 then none else l.get? i.toNat

/-- Lines 233-248: `(item.affectedSegmentIndices || []).map(segIdx => ...
segments[segIdx] ...)`; each entry is either a resolved segment or the
`null` rendered for an unresolved index. -/
def segmentRefs (segments : List Segment) (item : OutdatedItem) :
    List (Option Segment) :=
  (item.affectedSegmentIndices.getD []).map (fun i => jsIndex segments i)

/-- The timestamp links actually rendered: the non-null entries. -/
def renderedSegmentLinks (segments : List Segment) (item : OutdatedItem) :
    List Segment :=
  (segmentRefs segments item).filterMap id

/-- Lines 167-173: `new Set(outdatedItems.flatMap(i =>
i.affectedSegmentIndices || [])).size`. -/
def segmentsImpactedCount (items : List OutdatedItem) : Nat :=
  ((items.map (fun i => i.affectedSegmentIndices.getD [])).flatten).dedup.length

/-- The spec-side reading of the count: the cardinality of the union of the
items' index sets (bounds of `segments` play no role). -/
def distinctUnionCount (items : List OutdatedItem) : Nat :=
  (items.foldr
    (fun (it : OutdatedItem) (acc : Finset Int) =>
      (it.affectedSegmentIndices.getD []).toFinset ∪ acc)
    (∅ : Finset Int)).card

/-- C6. With two segments and affected indices [0, 5] exactly one segment
reference is derived (index 0) and index 5 renders nothing; in general any
out-of-range subscript resolves to none rather than failing. -/
theorem c6_out_of_range_tolerated (s0 s1 : Segment) (item : OutdatedItem)
    (hidx : item.affectedSegmentIndices = some [0, 5]) :
    (segmentRefs [s0, s1] item = [some s0, none] ∧
      renderedSegmentLinks [s0, s1] item = [s0]) ∧
      (∀ (segs : List Segment) (i : Int),
        i < 0 ∨ (segs.length : Int) ≤ i → jsIndex segs i = none) := by
  constructor
  · constructor
    · simp [segmentRefs, hidx, jsIndex]
    · simp [renderedSegmentLinks, segmentRefs, hidx, jsIndex]
  · intro segs i hi
    unfold jsIndex
    rcases hi with hneg | hbig
    · rw [if_pos hneg]
    · rw [if_neg (by omega)]
      apply List.get?_eq_none.mpr
      omega

/-- C6 witness at concrete segments and item. -/
theorem c6_out_of_range_tolerated_witness :
    (segmentRefs [⟨[], [], [], [], none⟩, ⟨[], [], [], [], none⟩]
        ⟨[], [], [], [], 1, some [0, 5]⟩ =
        [some ⟨[], [], [], [], none⟩, none] ∧
      renderedSegmentLinks [⟨[], [], [], [], none⟩, ⟨[], [], [], [], none⟩]
        ⟨[], [], [], [], 1, some [0, 5]⟩ = [⟨[], [], [], [], none⟩]) ∧
      jsIndex [⟨[], [], [], [], none⟩, ⟨[], [], [], [], none⟩] 5 = none := by
  obtain ⟨a, b⟩ := c6_out_of_range_tolerated ⟨[], [], [], [], none⟩
    ⟨[], [], [], [], none⟩ ⟨[], [], [], [], 1, some [0, 5]⟩ rfl
  exact ⟨a, b [⟨[], [], [], [], none⟩, ⟨[], [], [], [], none⟩] 5
    (Or.inr (by decide))⟩

/-- C10. The "Segments Impacted" figure counts the distinct values of the
union of all affected-index lists; out-of-range indices are counted, not
filtered (the count with segments of length 2 and indices [0, 5] is 2). -/
theorem c10_segments_impacted_count (items : List OutdatedItem) :
    segmentsImpactedCount items = distinctUnionCount items ∧
      segmentsImpactedCount [⟨[], [], [], [], 1, some [0, 5]⟩] = 2 := by
  constructor
  · unfold segmentsImpactedCount distinctUnionCount
    have hfin :
        ((items.map (fun i => i.affectedSegmentIndices.getD [])).flatten).toFinset =
          items.foldr
            (fun (it : OutdatedItem) (acc : Finset Int) =>
              (it.affectedSegmentIndices.getD []).toFinset ∪ acc)
            (∅ : Finset Int) := by
      induction items with
      | nil => simp
      | cons it rest ih =>
        simp only [List.map_cons, List.flatten_cons, List.toFinset_append,
          List.foldr_cons, ih]
    rw [← List.card_toFinset, hfin]
  · rfl

/-! Overlay generation: `generateVisualOverlay` (`src/services/geminiService.ts` lines
173-196): scan `response.candidates?.[0]?.content?.parts` for the first
part whose inline data carries an `image/` mime type and build a data URL
from it, else throw "No image generated". -/

structure InlineData where
  mimeType : List Char
  data : List Char
deriving DecidableEq

structure GenPart where
  inlineData : Option InlineData
deriving DecidableEq

structure GenContent where
  parts : Option (List GenPart)

structure GenCandidate where
  content : Option GenContent

structure GenResponse where
  candidates : Option (List GenCandidate)

/-- The optional chain `response.candidates?.[0]?.content?.parts`. -/
def chainParts (r : GenResponse) : Option (List GenPart) :=
  r.candidates.bind (fun cs =>
    (cs.get? 0).bind (fun c => c.content.bind (fun ct => ct.parts)))

def isImageData (d : InlineData) : Bool :=
  "image/".toList.isPrefixOf d.mimeType

def mkDataUrl (d : InlineData) : List Char :=
  "data:".toList ++ d.mimeType ++ ";base64,".toList ++ d.data

inductive OverlayErr where
  /-- Message "No image generated". -/
  | noImageGenerated
deriving DecidableEq

/-- The `for` loop over `parts`: first part with image inline data. -/
def findImage : List GenPart → Option InlineData
  | [] => none
  | p :: rest =>
    match p.inlineData with
    | some d => if isImageData d then some d else findImage rest
    | none => findImage rest

def generateVisualOverlay (r : GenResponse) : Except OverlayErr (List Char) :=
  match chainParts r with
  | some parts =>
    match findImage parts with
    | some d => .ok (mkDataUrl d)
    | none => .error .noImageGenerated
  | none => .error .noImageGenerated

/-- The response contains at least one part whose inline data has an image
mime type. -/
def hasImagePart (r : GenResponse) : Bool :=
  ((chainParts r).getD []).any (fun p =>
    match p.inlineData with
    | some d => isImageData d
    | none => false)

theorem findImage_none_iff (ps : List GenPart) :
    findImage ps = none ↔
      (ps.any (fun p =>
        match p.inlineData with
        | some d => isImageData d
        | none => false)) = false := by
  induction ps with
  | nil => simp [findImage]
  | cons p rest ih =>
    cases hd : p.inlineData with
    | none => simp [findImage, hd, ih]
    | some d =>
      by_cases hi : isImageData d = true
      · simp [findImage, hd, hi]
      · simp only [findImage, hd, if_neg hi, List.any_cons]
        rw [ih]
        have : isImageData d = false := by
          revert hi; cases isImageData d <;> simp
        simp [this]

theorem findImage_mem (ps : List GenPart) (d : InlineData)
    (h : findImage ps = some d) :
    ∃ p ∈ ps, p.inlineData = some d ∧ isImageData d = true := by
  induction ps with
  | nil => cases h
  | cons p rest ih =>
    cases hd : p.inlineData with
    | none =>
      simp only [findImage, hd] at h
      obtain ⟨q, hq, hqd⟩ := ih h
      exact ⟨q, List.mem_cons_of_mem p hq, hqd⟩
    | some d' =>
      simp only [findImage, hd] at h
      by_cases hi : isImageData d' = true
      · rw [if_pos hi] at h
        cases h
        exact ⟨p, List.mem_cons_self p rest, hd, hi⟩
      · rw [if_neg hi] at h
        obtain ⟨q, hq, hqd⟩ := ih h
        exact ⟨q, List.mem_cons_of_mem p hq, hqd⟩

/-- C7. `generateVisualOverlay` succeeds exactly when the response carries
an image part; on success the value is a data URL built from such a part's
mime type and bytes; otherwise it fails with "No image generated". -/
theorem c7_overlay_iff_image (r : GenResponse) :
    ((∃ s, generateVisualOverlay r = .ok s) ↔ hasImagePart r = true) ∧
      (hasImagePart r = false →
        generateVisualOverlay r = .error .noImageGenerated) ∧
      (∀ s, generateVisualOverlay r = .ok s →
        ∃ d, (∃ p ∈ (chainParts r).getD [], p.inlineData = some d ∧
          isImageData d = true) ∧ s = mkDataUrl d) := by
  cases hc : chainParts r with
  | none =>
    refine ⟨?_, ?_, ?_⟩
    · constructor
      · rintro ⟨s, hs⟩
        simp only [generateVisualOverlay, hc] at hs
        cases hs
      · intro h
        rw [hasImagePart, hc] at h
        simp at h
    · intro _
      simp only [generateVisualOverlay, hc]
    · intro s hs
      simp only [generateVisualOverlay, hc] at hs
      cases hs
  | some parts =>
    have hany : hasImagePart r =
        parts.any (fun p =>
          match p.inlineData with
          | some d => isImageData d
          | none => false) := by
      rw [hasImagePart, hc]
      rfl
    refine ⟨?_, ?_, ?_⟩
    · constructor
      · rintro ⟨s, hs⟩
        simp only [generateVisualOverlay, hc] at hs
        cases hf : findImage parts with
        | none => rw [hf] at hs; cases hs
        | some d =>
          rw [hany]
          by_contra hfalse
          have : findImage parts = none := by
            rw [findImage_none_iff]
            revert hfalse; cases parts.any _ <;> simp
          rw [this] at hf; cases hf
      · intro h
        rw [hany] at h
        simp only [generateVisualOverlay, hc]
        cases hf : findImage parts with
        | none =>
          rw [findImage_none_iff] at hf
          rw [hf] at h; cases h
        | some d => exact ⟨mkDataUrl d, rfl⟩
    · intro h
      rw [hany] at h
      simp only [generateVisualOverlay, hc]
      have : findImage parts = none := (findImage_none_iff parts).mpr h
      rw [this]
    · intro s hs
      simp only [generateVisualOverlay, hc] at hs
      cases hf : findImage parts with
      | none => rw [hf] at hs; cases hs
      | some d =>
        rw [hf] at hs
        cases hs
        obtain ⟨p, hp, hpd, hpi⟩ := findImage_mem parts d hf
        refine ⟨d, ⟨p, ?_, hpd, hpi⟩, rfl⟩
        simpa using hp

/-- C7 witness: a response with one image part succeeds with some data URL;
a response whose only part carries no inline data fails with "No image
generated". -/
theorem c7_overlay_iff_image_witness :
    (∃ s, generateVisualOverlay
        ⟨some [⟨some ⟨some [⟨some ⟨"image/png".toList, "QUJD".toList⟩⟩]⟩⟩]⟩ =
      .ok s) ∧
      generateVisualOverlay ⟨some [⟨some ⟨some [⟨none⟩]⟩⟩]⟩ =
        .error .noImageGenerated :=
  ⟨(c7_overlay_iff_image
      ⟨some [⟨some ⟨some [⟨some ⟨"image/png".toList, "QUJD".toList⟩⟩]⟩⟩]⟩).1.mpr
      (by decide),
    (c7_overlay_iff_image ⟨some [⟨some ⟨some [⟨none⟩]⟩⟩]⟩).2.1 (by decide)⟩

/-! Video-identifier resolver: `getYoutubeVideoId` (YouTube helpers module): the regex
`^.*(youtu.be\/|v\/|u\/\w\/|embed\/|watch\?v=|&v=)([^#&?]*).*` followed by
the exact-length-11 guard. The greedy `^.*` (which cannot cross a newline)
places the alternative at the latest position where one matches; the
alternatives start with pairwise distinct characters, so at most one of
them can match at a given position. Group 2 is the run of characters other
than `#`, `&`, `?` after the alternative; the trailing `.*` is
unconstrained. -/

def isWordChar (c : Char) : Bool :=
  ('a' ≤ c && c ≤ 'z') || ('A' ≤ c && c ≤ 'Z') || isDigit c || c = '_'

/-- Alternative `youtu.be\/` with `.` matching anything but a newline. -/
def matchYoutuBe : List Char → Bool
  | 'y' :: 'o' :: 'u' :: 't' :: 'u' :: c :: 'b' :: 'e' :: '/' :: _ => c != '\n'
  | _ => false

/-- Alternative `u\/\w\/`. -/
def matchUserPath : List Char → Bool
  | 'u' :: '/' :: c :: '/' :: _ => isWordChar c
  | _ => false

/-- Which alternative of group 1 matches at the head of `s`, and how many
characters it consumes. -/
def altMatch (s : List Char) : Option Nat :=
  if matchYoutuBe s then some 9
  else if "v/".toList.isPrefixOf s then some 2
  else if matchUserPath s then some 4
  else if "embed/".toList.isPrefixOf s then some 6
  else if "watch?v=".toList.isPrefixOf s then some 8
  else if "&v=".toList.isPrefixOf s then some 3
  else none

/-- The match chosen by the backtracking greedy `^.*`: the latest position
(before any newline) where an alternative matches, as (position, consumed
length). -/
def lastAlt : List Char → Option (Nat × Nat)
  | [] => none
  | c :: rest =>
    let here := (altMatch (c :: rest)).map (fun n => (0, n))
    if c = '\n' then here
    else
      match lastAlt rest with
      | some (k, n) => some (k + 1, n)
      | none => here

def getYoutubeVideoId (url : List Char) : Option (List Char) :=
  match lastAlt url with
  | none => none
  | some (k, n) =>
    let g2 := (url.drop (k + n)).takeWhile
      (fun c => c != '#' && c != '&' && c != '?')
    if g2.length = 11 then some g2 else none

/-- C8. `getYoutubeVideoId` always returns either an 11-character
identifier or none (and, concretely, extracts the identifier from a
standard watch URL). -/
theorem c8_video_id_length (url : List Char) :
    ((getYoutubeVideoId url).all (fun r => r.length == 11) = true) ∧
      getYoutubeVideoId ("https://www.youtube.com/watch?v=dQw4w9WgXcQ".toList) =
        some ("dQw4w9WgXcQ".toList) := by
  constructor
  · unfold getYoutubeVideoId
    cases lastAlt url with
    | none => rfl
    | some kn =>
      obtain ⟨k, n⟩ := kn
      simp only
      set g2 := (url.drop (k + n)).takeWhile
        (fun c => c != '#' && c != '&' && c != '?') with hg2
      by_cases hlen : g2.length = 11
      · rw [if_pos hlen]
        simp [Option.all, hlen]
      · rw [if_neg hlen]
        rfl
  · rfl

end Revival
